import Mathlib

/-!
Shallow embedding of the templ `<script>` element sub-parser
(`parser/v2/scriptparser.go`).  The input cursor is modelled as the list of
characters remaining to be consumed; a parser returns `some (value, rest)`
when it matches, `none` when it cleanly fails.  Positions are byte offsets
computed from the length of the original input minus the length of the
remaining input (all concrete inputs used here are ASCII, so byte offsets
and character offsets coincide).
-/

/-- Named character constants, used to keep quoting uniform. -/
def tabChar : Char := Char.ofNat 9

def nlChar : Char := Char.ofNat 10

def vtChar : Char := Char.ofNat 11

def ffChar : Char := Char.ofNat 12

def crChar : Char := Char.ofNat 13

def quoteDoubleChar : Char := Char.ofNat 34

def quoteSingleChar : Char := Char.ofNat 39

def backslashChar : Char := Char.ofNat 92

def backtickChar : Char := Char.ofNat 96

def braceOpenChar : Char := Char.ofNat 123

def braceCloseChar : Char := Char.ofNat 125

def nelChar : Char := Char.ofNat 133

def nbspChar : Char := Char.ofNat 160

def slashChar : Char := '/'

/-- Whitespace as used by the parse library's whitespace combinators and by
Go's `strings.TrimRight(s, " \t\r\n")` cutset. -/
def isWSChar (c : Char) : Bool :=
  c = ' ' || c = tabChar || c = nlChar || c = crChar

/-- Go's `unicode.IsSpace` restricted to the Latin-1 range (the only
characters our keyword check can meet on the modelled inputs). -/
def isGoSpace (c : Char) : Bool :=
  c = ' ' || c = tabChar || c = nlChar || c = vtChar || c = ffChar ||
  c = crChar || c = nelChar || c = nbspChar

/-- `parse.String(lit)`: match a literal prefix, consuming it. -/
def matchLit (lit cs : List Char) : Option (List Char) :=
  if cs.take lit.length = lit then some (cs.drop lit.length) else none

/-- `parse.StringUntil(delim)`: consume characters until `delim` matches at
the current position; the delimiter is left unconsumed.  Clean failure when
the input ends without the delimiter ever matching. -/
def stringUntilP (delim : List Char → Option (List Char × List Char)) :
    List Char → Option (List Char × List Char)
  | [] => if (delim []).isSome then some ([], []) else none
  | c :: cs =>
    if (delim (c :: cs)).isSome then some ([], c :: cs)
    else (stringUntilP delim cs).map (fun p => (c :: p.1, p.2))

def jsEndTagL : List Char := "</script>".toList

def dslashL : List Char := "//".toList

def slashStarL : List Char := "/*".toList

def starSlashL : List Char := "*/".toList

def crnlL : List Char := "\r\n".toList

def nlL : List Char := "\n".toList

def scriptNameL : List Char := "script".toList

def ltL : List Char := ['<']

def gtL : List Char := ['>']

/-- A literal string viewed as a delimiter parser returning the matched
text and the rest. -/
def litDelim (lit cs : List Char) : Option (List Char × List Char) :=
  (matchLit lit cs).map (fun r => (lit, r))

/-- `parse.Or(parse.NewLine, parse.EOF)`: a newline, or the empty match at
end of input.  Returns the matched text and the rest. -/
def newLineOrEOF (cs : List Char) : Option (List Char × List Char) :=
  match matchLit crnlL cs with
  | some r => some (crnlL, r)
  | none =>
    match matchLit nlL cs with
    | some r => some (nlL, r)
    | none => if cs = [] then some ([], []) else none

/-- `parse.Or(parse.String("*/"), parse.EOF)`. -/
def starSlashOrEOF (cs : List Char) : Option (List Char × List Char) :=
  match matchLit starSlashL cs with
  | some r => some (starSlashL, r)
  | none => if cs = [] then some ([], []) else none

/-- `jsSingleLineComment`: `//` through end-of-line or end-of-input; the
returned text includes the `//` and the terminating newline (if any). -/
def jsSingleLineComment (cs : List Char) : Option (List Char × List Char) :=
  match matchLit dslashL cs with
  | none => none
  | some rest1 =>
    match stringUntilP newLineOrEOF rest1 with
    | none => none
    | some (body, rest2) =>
      match newLineOrEOF rest2 with
      | some (nl, rest3) => some (dslashL ++ body ++ nl, rest3)
      | none => none

/-- `jsMultiLineComment`: `/*` through `*/` or end-of-input, then any
trailing whitespace; the whitespace is part of the returned text. -/
def jsMultiLineComment (cs : List Char) : Option (List Char × List Char) :=
  match matchLit slashStarL cs with
  | none => none
  | some rest1 =>
    match stringUntilP starSlashOrEOF rest1 with
    | none => none
    | some (body, rest2) =>
      match starSlashOrEOF rest2 with
      | some (cl, rest3) =>
        some (slashStarL ++ body ++ cl ++ rest3.takeWhile isWSChar,
              rest3.dropWhile isWSChar)
      | none => none

/-- `jsComment = parse.Any(jsSingleLineComment, jsMultiLineComment)`. -/
def jsComment (cs : List Char) : Option (List Char × List Char) :=
  match jsSingleLineComment cs with
  | some r => some r
  | none => jsMultiLineComment cs

/-- `jsCharacter = parse.Any(jsEscapedCharacter, parse.AnyRune)`.  The
generic backslash escape (`\` + any character) is tried before the
unicode/hex escape forms and always wins when a backslash is present, so
the unit is two characters after a backslash and one character otherwise. -/
def jsCharacter (cs : List Char) : Option (List Char × List Char) :=
  match cs with
  | [] => none
  | c :: cs' =>
    if c = backslashChar then
      match cs' with
      | d :: cs'' => some ([c, d], cs'')
      | [] => some ([c], cs')
    else some ([c], cs')

/-- A recognized embedded template expression: the trimmed expression text
and the raw source text that was consumed for it. -/
structure GoCode where
  expression : List Char
  raw : List Char
deriving DecidableEq, Repr

def trimWS (s : List Char) : List Char :=
  ((s.dropWhile isWSChar).reverse.dropWhile isWSChar).reverse

def exprOpenL : List Char := [braceOpenChar, braceOpenChar]

def exprCloseL : List Char := [braceCloseChar, braceCloseChar]

/-- Modelled from the spec: `goCodeInJavaScript`, the external
embedded-expression grammar (not part of this source file), "recognizes
template-directive syntax (e.g., `\x7b\x7b expr \x7d\x7d`) and turns it
into a value usable as a spliced expression node"; it either recognizes the
syntax and returns an expression node plus advanced cursor, or cleanly
fails. -/
def goCodeInJavaScript (cs : List Char) : Option (GoCode × List Char) :=
  match matchLit exprOpenL cs with
  | none => none
  | some rest1 =>
    match stringUntilP (litDelim exprCloseL) rest1 with
    | none => none
    | some (body, rest2) =>
      some (⟨trimWS body, exprOpenL ++ body ++ exprCloseL⟩, rest2.drop 2)

/-- The `jsQuote` string-delimiter state: none, or the open quote kind. -/
inductive jsQuote where
  | none
  | single
  | double
  | backtick
deriving DecidableEq, Repr

def jsQuoteOf (c : Char) : jsQuote :=
  if c = quoteSingleChar then jsQuote.single
  else if c = quoteDoubleChar then jsQuote.double
  else if c = backtickChar then jsQuote.backtick
  else jsQuote.none

/-- Keywords that can precede a regex literal. -/
def regexKeywords : List (List Char) :=
  ["return", "yield", "case", "delete", "do", "else", "in", "instanceof",
   "new", "throw", "typeof", "void"].map String.toList

/-- Characters that can precede a regex literal. -/
def regexPrecedingChars : List Char :=
  ['(', ',', '=', ':', '[', '!', '&', '|', '?', braceOpenChar, ';']

/-- Go `strings.TrimRight(s, " \t\r\n")`. -/
def trimRightWS (s : List Char) : List Char :=
  (s.reverse.dropWhile isWSChar).reverse

/-- One keyword test of the loop in `isStartOfRegex`: the trimmed text ends
with the keyword, and the keyword is the whole text or is preceded by a
whitespace character. -/
def endsWithKeywordCode (t kw : List Char) : Bool :=
  kw.isSuffixOf t &&
    (decide (t.length = kw.length) || isGoSpace (t.getD (t.length - kw.length - 1) ' '))

/-- `isStartOfRegex`: does a `/` after `s` begin a regex literal rather
than a division operator? -/
def isStartOfRegex (s : List Char) : Bool :=
  let t := trimRightWS s
  if t = [] then true
  else if regexKeywords.any (endsWithKeywordCode t) then true
  else
    match t.getLast? with
    | some c => regexPrecedingChars.contains c
    | Option.none => false

/-- The per-character scanner state update (the body of the loop after a
character unit `c` has been consumed, before it is appended to the buffer
`sb`): regex open/close tracking (only attempted when no string is open),
then string-delimiter tracking (only when not inside a regex). -/
def updateState (sb : List Char) (delim : jsQuote) (rgx : Bool) (c : List Char) :
    jsQuote × Bool :=
  let rgx1 :=
    if delim = jsQuote.none then
      if !rgx && c = [slashChar] && isStartOfRegex sb then true
      else if rgx && c = [slashChar] then
        if sb ≠ [] && sb.getLast? ≠ some backslashChar then false else rgx
      else rgx
    else rgx
  let delim1 :=
    if !rgx1 then
      if c = [quoteDoubleChar] || c = [quoteSingleChar] || c = [backtickChar] then
        if delim = jsQuote.none then jsQuoteOf (c.getD 0 ' ')
        else if delim = jsQuoteOf (c.getD 0 ' ') then jsQuote.none
        else delim
      else delim
    else delim
  (delim1, rgx1)

/-- Attribute keys: a literal name or an expression. -/
inductive AttributeKey where
  | constant (name : List Char)
  | expression (code : List Char)
deriving DecidableEq, Repr

/-- Attribute nodes as consulted by `hasJavaScriptType`: a constant
(literal-valued) attribute, an expression-valued attribute, or a boolean
attribute with no value. -/
inductive Attribute where
  | constantAttr (key : AttributeKey) (value : List Char)
  | expressionAttr (key : AttributeKey) (expression : List Char)
  | boolAttr (key : AttributeKey)
deriving DecidableEq, Repr

/-- ASCII `strings.EqualFold`. -/
def equalFold (a b : List Char) : Bool :=
  a.map Char.toLower = b.map Char.toLower

def typeL : List Char := "type".toList

/-- The attribute values that classify the content as JavaScript. -/
def javaScriptTypeAttributeValues : List (List Char) :=
  ["", "text/javascript", "javascript", "module"].map String.toList

/-- `hasJavaScriptType`: scan the attributes for the first constant
attribute with a constant key equal (case-insensitively) to `type`; if
found, answer whether its value is one of the JavaScript media types; if
none is found, the content is JavaScript. -/
def hasJavaScriptType : List Attribute → Bool
  | [] => true
  | attr :: rest =>
    match attr with
    | Attribute.constantAttr (AttributeKey.constant keyName) value =>
      if equalFold keyName typeL then
        javaScriptTypeAttributeValues.any (fun v => equalFold value v)
      else hasJavaScriptType rest
    | _ => hasJavaScriptType rest

/-- A content entry of a script element: a literal run of script text, or
an embedded Go expression with its inside-string flag. -/
inductive ScriptContents where
  | scriptCode (value : List Char)
  | goCode (code : GoCode) (insideStringLiteral : Bool)
deriving DecidableEq, Repr

/-- The parsed script element.  `fromPos`/`toPos` are the source span; the
Go code leaves the span unset (zero) on the raw-text path. -/
structure ScriptElement where
  attributes : List Attribute
  contents : List ScriptContents
  fromPos : Nat
  toPos : Nat
deriving DecidableEq, Repr

structure ParseErr where
  msg : String
  pos : Nat
deriving DecidableEq, Repr

/-- Result of the content-scanning loop: the contents plus the input
remaining after the loop ends, or a terminal error. -/
inductive ScanResult where
  | done (contents : List ScriptContents) (rest : List Char)
  | fail (err : ParseErr)
deriving DecidableEq, Repr

/-- Result of the element parse: success (with the cursor after the
element, and optionally an error returned alongside, as the raw-text path
does), a clean non-match with the cursor restored, or a fatal error. -/
inductive ParseResult where
  | ok (e : ScriptElement) (rest : List Char) (err : Option ParseErr)
  | noMatch (rest : List Char)
  | fatal (err : ParseErr)
deriving DecidableEq, Repr

/-- Flush the pending buffer: a single literal entry if non-empty. -/
def flushBuffer (sb : List Char) : List ScriptContents :=
  if sb = [] then [] else [ScriptContents.scriptCode sb]

def endTagNotPresentMsg : String := "<script>: expected end tag not present"

def scriptContentErrMsg : String := "failed to parse script content"

def fuelOutMsg : String := "internal: fuel exhausted"

/-- The JavaScript-aware scanning loop of `scriptElementParser.Parse`
(lines 78-149): each iteration checks, in order, the end tag, an embedded
Go expression, a comment, and finally consumes one character unit and
updates the string/regex state.  `total` is the length of the whole input,
used only to report a position in the (unreachable) character-failure
branch.  The fuel is sufficient whenever it exceeds the remaining input
length, since every iteration consumes at least one character. -/
def parseScriptContents (total : Nat) :
    Nat → List Char → List Char → List ScriptContents → jsQuote → Bool → ScanResult
  | 0, _, _, _, _, _ => ScanResult.fail ⟨fuelOutMsg, 0⟩
  | fuel + 1, cs, sb, contents, delim, rgx =>
    match matchLit jsEndTagL cs with
    | some rest => ScanResult.done (contents ++ flushBuffer sb) rest
    | none =>
      match goCodeInJavaScript cs with
      | some (code, rest) =>
        parseScriptContents total fuel rest []
          (contents ++ flushBuffer sb ++
            [ScriptContents.goCode code (decide (delim ≠ jsQuote.none))])
          delim rgx
      | none =>
        match jsComment cs with
        | some (text, rest) =>
          parseScriptContents total fuel rest []
            (contents ++ flushBuffer sb ++ [ScriptContents.scriptCode text])
            delim rgx
        | none =>
          match jsCharacter cs with
          | some (u, rest) =>
            let st := updateState sb delim rgx u
            parseScriptContents total fuel rest (sb ++ u) contents st.1 st.2
          | none =>
            if cs = [] then ScanResult.done (contents ++ flushBuffer sb) []
            else ScanResult.fail ⟨scriptContentErrMsg, total - cs.length⟩

def isNameChar (c : Char) : Bool :=
  c.isAlpha || c.isDigit || c = '-' || c = '_'

/-- Modelled from the spec: `elementNameParser`, part of the outer markup
grammar (not in this source file), which "recognizes generic elements": an
element name starts with a letter and continues with letters, digits,
hyphens or underscores. -/
def elementNameParser (cs : List Char) : Option (List Char × List Char) :=
  match cs with
  | [] => none
  | c :: _ =>
    if c.isAlpha then some (cs.takeWhile isNameChar, cs.dropWhile isNameChar)
    else none

/-- Modelled from the spec: `attributesParser`, the external attribute
grammar (not in this source file), which parses `<script attr="v" ...>`
into an ordered list of attribute nodes, "each either a literal key/value
pair or a template-expression-valued attribute"; it cleanly fails on a
malformed attribute. -/
def attributesParserAux :
    Nat → List Char → List Attribute → Option (List Attribute × List Char)
  | 0, _, _ => none
  | fuel + 1, cs, acc =>
    let cs1 := cs.dropWhile isWSChar
    match cs1 with
    | [] => some (acc, cs)
    | c :: _ =>
      if c.isAlpha then
        let key := cs1.takeWhile isNameChar
        let rest1 := cs1.dropWhile isNameChar
        match rest1 with
        | [] => some (acc ++ [Attribute.boolAttr (AttributeKey.constant key)], rest1)
        | eqc :: rest2 =>
          if eqc = '=' then
            match rest2 with
            | [] => none
            | q :: rest3 =>
              if q = quoteDoubleChar then
                match stringUntilP (litDelim [quoteDoubleChar]) rest3 with
                | some (v, rest4) =>
                  attributesParserAux fuel (rest4.drop 1)
                    (acc ++ [Attribute.constantAttr (AttributeKey.constant key) v])
                | none => none
              else if q = braceOpenChar then
                match stringUntilP (litDelim [braceCloseChar]) rest3 with
                | some (v, rest4) =>
                  attributesParserAux fuel (rest4.drop 1)
                    (acc ++ [Attribute.expressionAttr (AttributeKey.constant key) v])
                | none => none
              else none
          else
            attributesParserAux fuel rest1
              (acc ++ [Attribute.boolAttr (AttributeKey.constant key)])
      else some (acc, cs)

def attributesParser (cs : List Char) : Option (List Attribute × List Char) :=
  attributesParserAux (cs.length + 1) cs []

/-- `scriptElementParser.Parse`: the single entry point.  The input list is
the whole input with the cursor at its head (position 0); on a soft
failure of the opening tag the original input is returned, mirroring
`pi.Seek(int(start.Index))`. -/
def scriptElementParse (input : List Char) : ParseResult :=
  let total := input.length
  match matchLit ltL input with
  | none => ParseResult.noMatch input
  | some cs1 =>
    match elementNameParser cs1 with
    | none => ParseResult.noMatch input
    | some (name, cs2) =>
      if name ≠ scriptNameL then ParseResult.noMatch input
      else
        match attributesParser cs2 with
        | none => ParseResult.noMatch input
        | some (attrs, cs3) =>
          let cs4 := cs3.dropWhile isWSChar
          match matchLit gtL cs4 with
          | none => ParseResult.noMatch input
          | some cs5 =>
            if !hasJavaScriptType attrs then
              match stringUntilP (litDelim jsEndTagL) cs5 with
              | none =>
                ParseResult.ok ⟨attrs, [], 0, 0⟩ cs5
                  (some ⟨endTagNotPresentMsg, total - cs5.length⟩)
              | some (contents, rest1) =>
                let rest2 :=
                  match matchLit jsEndTagL rest1 with
                  | some r => r
                  | none => rest1
                ParseResult.ok
                  ⟨attrs, [ScriptContents.scriptCode contents], 0, 0⟩ rest2 Option.none
            else
              match parseScriptContents total (cs5.length + 1) cs5 [] []
                  jsQuote.none false with
              | ScanResult.fail err => ParseResult.fatal err
              | ScanResult.done contents rest =>
                ParseResult.ok ⟨attrs, contents, 0, total - rest.length⟩ rest Option.none

/-- Serialization of one content entry: literal text verbatim; an
expression entry is rendered back to its original source text. -/
def serializeScriptContent : ScriptContents → List Char
  | ScriptContents.scriptCode v => v
  | ScriptContents.goCode g _ => g.raw

def serializeContents (xs : List ScriptContents) : List Char :=
  (xs.map serializeScriptContent).flatten

def isLiteralEntry : ScriptContents → Bool
  | ScriptContents.scriptCode _ => true
  | ScriptContents.goCode _ _ => false

/-- No two adjacent entries of the list are both literals. -/
def noAdjacentLiterals : List ScriptContents → Bool
  | a :: b :: t => !(isLiteralEntry a && isLiteralEntry b) && noAdjacentLiterals (b :: t)
  | _ => true

/-- True when the list does not end with a literal entry. -/
def endsNonLiteral (xs : List ScriptContents) : Bool :=
  match xs.getLast? with
  | some e => !isLiteralEntry e
  | Option.none => true

/-- The value of the first attribute that is a constant attribute with a
constant key case-insensitively equal to `type`, if any (the spec's "first
literal `type` attribute"). -/
def firstLiteralTypeAttr : List Attribute → Option (List Char)
  | [] => Option.none
  | attr :: rest =>
    match attr with
    | Attribute.constantAttr (AttributeKey.constant keyName) value =>
      if equalFold keyName typeL then some value else firstLiteralTypeAttr rest
    | _ => firstLiteralTypeAttr rest

/-- The spec's wording of `isStartOfRegex`, as a proposition: the trimmed
text is empty, or ends with one of the keywords as a whole word (preceded
by whitespace or nothing), or its last character is one of the regex
preceding characters. -/
def isStartOfRegexSpec (s : List Char) : Prop :=
  trimRightWS s = [] ∨
  (∃ kw ∈ regexKeywords, ∃ pre, trimRightWS s = pre ++ kw ∧
    (pre = [] ∨ ∃ c, pre.getLast? = some c ∧ isGoSpace c = true)) ∨
  (∃ c, (trimRightWS s).getLast? = some c ∧ c ∈ regexPrecedingChars)

/-- The scanner states reachable by the JavaScript-aware scanner: the loop
starts with no open string and not inside a regex, and every state change
goes through `updateState` (for an arbitrary pending buffer and consumed
unit, which over-approximates the states of actual runs). -/
inductive ScanReachable : jsQuote → Bool → Prop where
  | init : ScanReachable jsQuote.none false
  | step (sb c : List Char) (delim : jsQuote) (rgx : Bool) :
      ScanReachable delim rgx →
      ScanReachable (updateState sb delim rgx c).1 (updateState sb delim rgx c).2

/-! ## Basic facts about the primitive parsers -/

theorem matchLit_eq_append {lit cs rest : List Char}
    (h : matchLit lit cs = some rest) : cs = lit ++ rest := by
  unfold matchLit at h
  split at h
  · next heq =>
    injection h with h
    rw [← heq, ← h]
    exact (List.take_append_drop ..).symm
  · cases h

theorem matchLit_append (lit rest : List Char) :
    matchLit lit (lit ++ rest) = some rest := by
  unfold matchLit
  rw [List.take_left, if_pos rfl, List.drop_left]

theorem matchLit_isPrefix {lit cs rest : List Char}
    (h : matchLit lit cs = some rest) : lit <+: cs := by
  rw [matchLit_eq_append h]; exact List.prefix_append ..

theorem stringUntilP_eq {d : List Char → Option (List Char × List Char)} :
    ∀ {cs t rest : List Char}, stringUntilP d cs = some (t, rest) →
      cs = t ++ rest ∧ (d rest).isSome = true := by
  intro cs
  induction cs with
  | nil =>
    intro t rest h
    unfold stringUntilP at h
    split at h
    · next hd =>
      injection h with h
      cases h
      exact ⟨rfl, hd⟩
    · cases h
  | cons c cs ih =>
    intro t rest h
    unfold stringUntilP at h
    split at h
    · next hd =>
      injection h with h
      cases h
      exact ⟨rfl, hd⟩
    · next hd =>
      obtain ⟨p, hp, hpe⟩ := Option.map_eq_some'.mp h
      obtain ⟨t', rest'⟩ := p
      injection hpe with hpe1 hpe2
      subst hpe1
      subst hpe2
      obtain ⟨hcs, hds⟩ := ih hp
      exact ⟨by rw [hcs]; rfl, hds⟩
theorem newLineOrEOF_eq {cs t rest : List Char}
    (h : newLineOrEOF cs = some (t, rest)) : cs = t ++ rest := by
  unfold newLineOrEOF at h
  cases hm : matchLit crnlL cs with
  | some r =>
    rw [hm] at h
    dsimp only at h
    injection h with h
    injection h with h1 h2
    subst h1; subst h2
    exact matchLit_eq_append hm
  | none =>
    rw [hm] at h
    dsimp only at h
    cases hm2 : matchLit nlL cs with
    | some r =>
      rw [hm2] at h
      dsimp only at h
      injection h with h
      injection h with h1 h2
      subst h1; subst h2
      exact matchLit_eq_append hm2
    | none =>
      rw [hm2] at h
      dsimp only at h
      by_cases hc : cs = []
      · rw [if_pos hc] at h
        injection h with h
        injection h with h1 h2
        subst h1; subst h2
        simpa using hc
      · rw [if_neg hc] at h
        cases h

theorem starSlashOrEOF_eq {cs t rest : List Char}
    (h : starSlashOrEOF cs = some (t, rest)) : cs = t ++ rest := by
  unfold starSlashOrEOF at h
  cases hm : matchLit starSlashL cs with
  | some r =>
    rw [hm] at h
    dsimp only at h
    injection h with h
    injection h with h1 h2
    subst h1; subst h2
    exact matchLit_eq_append hm
  | none =>
    rw [hm] at h
    dsimp only at h
    by_cases hc : cs = []
    · rw [if_pos hc] at h
      injection h with h
      injection h with h1 h2
      subst h1; subst h2
      simpa using hc
    · rw [if_neg hc] at h
      cases h

theorem jsSingleLineComment_eq {cs t rest : List Char}
    (h : jsSingleLineComment cs = some (t, rest)) :
    cs = t ++ rest ∧ t ≠ [] ∧ dslashL <+: cs := by
  unfold jsSingleLineComment at h
  cases hm : matchLit dslashL cs with
  | none => rw [hm] at h; cases h
  | some rest1 =>
    rw [hm] at h
    dsimp only at h
    cases hu : stringUntilP newLineOrEOF rest1 with
    | none => rw [hu] at h; cases h
    | some p =>
      obtain ⟨body, rest2⟩ := p
      rw [hu] at h
      dsimp only at h
      cases hn : newLineOrEOF rest2 with
      | none => rw [hn] at h; cases h
      | some q =>
        obtain ⟨nl, rest3⟩ := q
        rw [hn] at h
        dsimp only at h
        injection h with h
        injection h with h1 h2
        subst h1; subst h2
        have e1 := matchLit_eq_append hm
        have e2 := (stringUntilP_eq hu).1
        have e3 := newLineOrEOF_eq hn
        refine ⟨?_, by simp [dslashL], matchLit_isPrefix hm⟩
        rw [e1, e2, e3]
        simp

theorem jsMultiLineComment_eq {cs t rest : List Char}
    (h : jsMultiLineComment cs = some (t, rest)) :
    cs = t ++ rest ∧ t ≠ [] ∧ slashStarL <+: cs := by
  unfold jsMultiLineComment at h
  cases hm : matchLit slashStarL cs with
  | none => rw [hm] at h; cases h
  | some rest1 =>
    rw [hm] at h
    dsimp only at h
    cases hu : stringUntilP starSlashOrEOF rest1 with
    | none => rw [hu] at h; cases h
    | some p =>
      obtain ⟨body, rest2⟩ := p
      rw [hu] at h
      dsimp only at h
      cases hn : starSlashOrEOF rest2 with
      | none => rw [hn] at h; cases h
      | some q =>
        obtain ⟨cl, rest3⟩ := q
        rw [hn] at h
        dsimp only at h
        injection h with h
        injection h with h1 h2
        subst h1; subst h2
        have e1 := matchLit_eq_append hm
        have e2 := (stringUntilP_eq hu).1
        have e3 := starSlashOrEOF_eq hn
        refine ⟨?_, by simp [slashStarL], matchLit_isPrefix hm⟩
        rw [e1, e2, e3]
        conv_lhs => rw [← List.takeWhile_append_dropWhile isWSChar rest3]
        simp

theorem jsComment_eq {cs t rest : List Char}
    (h : jsComment cs = some (t, rest)) :
    cs = t ++ rest ∧ t ≠ [] ∧ (dslashL <+: cs ∨ slashStarL <+: cs) := by
  unfold jsComment at h
  cases hs : jsSingleLineComment cs with
  | some r =>
    rw [hs] at h
    dsimp only at h
    injection h with h
    subst h
    obtain ⟨e, hne, hp⟩ := jsSingleLineComment_eq hs
    exact ⟨e, hne, Or.inl hp⟩
  | none =>
    rw [hs] at h
    dsimp only at h
    obtain ⟨e, hne, hp⟩ := jsMultiLineComment_eq h
    exact ⟨e, hne, Or.inr hp⟩

theorem jsCharacter_eq {cs u rest : List Char}
    (h : jsCharacter cs = some (u, rest)) : cs = u ++ rest ∧ u ≠ [] := by
  cases cs with
  | nil => cases h
  | cons c cs' =>
    unfold jsCharacter at h
    dsimp only at h
    by_cases hb : c = backslashChar
    · rw [if_pos hb] at h
      cases cs' with
      | nil =>
        dsimp only at h
        injection h with h
        injection h with h1 h2
        subst h1; subst h2
        exact ⟨rfl, by simp⟩
      | cons d cs'' =>
        dsimp only at h
        injection h with h
        injection h with h1 h2
        subst h1; subst h2
        exact ⟨rfl, by simp⟩
    · rw [if_neg hb] at h
      injection h with h
      injection h with h1 h2
      subst h1; subst h2
      exact ⟨rfl, by simp⟩

theorem jsCharacter_none_iff {cs : List Char} :
    jsCharacter cs = none ↔ cs = [] := by
  constructor
  · intro h
    cases cs with
    | nil => rfl
    | cons c cs' =>
      unfold jsCharacter at h
      dsimp only at h
      by_cases hb : c = backslashChar
      · rw [if_pos hb] at h
        cases cs' with
        | nil => cases h
        | cons d cs'' => cases h
      · rw [if_neg hb] at h
        cases h
  · intro h; subst h; rfl

theorem goCodeInJavaScript_eq {cs rest : List Char} {g : GoCode}
    (h : goCodeInJavaScript cs = some (g, rest)) :
    cs = g.raw ++ rest ∧ g.raw ≠ [] := by
  unfold goCodeInJavaScript at h
  cases hm : matchLit exprOpenL cs with
  | none => rw [hm] at h; cases h
  | some rest1 =>
    rw [hm] at h
    dsimp only at h
    cases hu : stringUntilP (litDelim exprCloseL) rest1 with
    | none => rw [hu] at h; cases h
    | some p =>
      obtain ⟨body, rest2⟩ := p
      rw [hu] at h
      dsimp only at h
      injection h with h
      injection h with h1 h2
      subst h1; subst h2
      obtain ⟨e2, hds⟩ := stringUntilP_eq hu
      obtain ⟨q, hq⟩ := Option.isSome_iff_exists.mp hds
      obtain ⟨mq, hmq, hmqe⟩ := Option.map_eq_some'.mp hq
      have e3 := matchLit_eq_append hmq
      have hdrop : List.drop 2 (exprCloseL ++ mq) = mq := by
        have hl : exprCloseL.length = 2 := rfl
        rw [← hl, List.drop_left]
      have e1 := matchLit_eq_append hm
      constructor
      · rw [e1, e2, e3, hdrop]
        simp
      · simp [exprOpenL]

/-! ## One-step characterizations of the scanning loop -/

theorem scan_endTag {total f : Nat} {cs sb rest : List Char}
    {contents : List ScriptContents} {delim : jsQuote} {rgx : Bool}
    (h : matchLit jsEndTagL cs = some rest) :
    parseScriptContents total (f + 1) cs sb contents delim rgx =
      ScanResult.done (contents ++ flushBuffer sb) rest := by
  unfold parseScriptContents
  rw [h]

theorem scan_goCode {total f : Nat} {cs sb rest : List Char}
    {contents : List ScriptContents} {delim : jsQuote} {rgx : Bool} {code : GoCode}
    (hend : matchLit jsEndTagL cs = none)
    (hgo : goCodeInJavaScript cs = some (code, rest)) :
    parseScriptContents total (f + 1) cs sb contents delim rgx =
      parseScriptContents total f rest []
        (contents ++ flushBuffer sb ++
          [ScriptContents.goCode code (decide (delim ≠ jsQuote.none))])
        delim rgx := by
  conv_lhs => unfold parseScriptContents
  rw [hend, hgo]

theorem scan_comment {total f : Nat} {cs sb rest text : List Char}
    {contents : List ScriptContents} {delim : jsQuote} {rgx : Bool}
    (hend : matchLit jsEndTagL cs = none)
    (hgo : goCodeInJavaScript cs = none)
    (hc : jsComment cs = some (text, rest)) :
    parseScriptContents total (f + 1) cs sb contents delim rgx =
      parseScriptContents total f rest []
        (contents ++ flushBuffer sb ++ [ScriptContents.scriptCode text])
        delim rgx := by
  conv_lhs => unfold parseScriptContents
  rw [hend, hgo, hc]

theorem scan_char {total f : Nat} {cs sb rest u : List Char}
    {contents : List ScriptContents} {delim : jsQuote} {rgx : Bool}
    (hend : matchLit jsEndTagL cs = none)
    (hgo : goCodeInJavaScript cs = none)
    (hc : jsComment cs = none)
    (hch : jsCharacter cs = some (u, rest)) :
    parseScriptContents total (f + 1) cs sb contents delim rgx =
      parseScriptContents total f rest (sb ++ u) contents
        (updateState sb delim rgx u).1 (updateState sb delim rgx u).2 := by
  conv_lhs => unfold parseScriptContents
  rw [hend, hgo, hc, hch]

theorem scan_eof {total f : Nat} {sb : List Char}
    {contents : List ScriptContents} {delim : jsQuote} {rgx : Bool} :
    parseScriptContents total (f + 1) [] sb contents delim rgx =
      ScanResult.done (contents ++ flushBuffer sb) [] := by
  unfold parseScriptContents
  have h1 : matchLit jsEndTagL [] = none := rfl
  have h2 : goCodeInJavaScript [] = none := rfl
  have h3 : jsComment [] = none := rfl
  have h4 : jsCharacter ([] : List Char) = none := rfl
  rw [h1, h2, h3, h4]
  simp

/-! ## Claims -/

/-- C1: in the JavaScript-aware scanning loop, the end-tag check runs at
the start of every iteration and is not gated by the string or regex
state: whenever the literal `</script>` stands at an iteration start, the
loop stops there immediately (for every buffer, accumulated contents,
string delimiter and regex flag).  In particular, content beginning with a
quoted `</script>` terminates at the occurrence inside the double-quoted
string. -/
theorem endTag_check_unconditional :
    (∀ (total f : Nat) (sb rest : List Char) (contents : List ScriptContents)
        (delim : jsQuote) (rgx : Bool),
      parseScriptContents total (f + 1) (jsEndTagL ++ rest) sb contents delim rgx =
        ScanResult.done (contents ++ flushBuffer sb) rest) ∧
    scriptElementParse ("<script>\"</script>\"".toList) =
      ParseResult.ok ⟨[], [ScriptContents.scriptCode [quoteDoubleChar]], 0, 18⟩
        [quoteDoubleChar] Option.none := by
  constructor
  · intro total f sb rest contents delim rgx
    exact scan_endTag (matchLit_append jsEndTagL rest)
  · decide

/-- C7: a single-line comment whose body contains `</script>` does not
itself terminate the element: the comment (with its newline) is consumed
as one atomic unit and captured as its own Literal entry, scanning
continues, and the element ends only at the later real end tag. -/
theorem comment_end_tag_does_not_terminate :
    scriptElementParse ("<script>// </script>\nreal();</script>".toList) =
      ParseResult.ok
        ⟨[], [ScriptContents.scriptCode ("// </script>\n".toList),
              ScriptContents.scriptCode ("real();".toList)], 0, 37⟩
        [] Option.none := by
  decide

/-- C8: an Expression entry is appended with its insideStringLiteral flag
equal to whether the string delimiter is non-none at the moment the
expression is recognized (for every scanner state); and the input
`<script>{{ name }}</script>` parses to exactly one Expression entry for
`name` with the flag false. -/
theorem expression_insideStringLiteral_flag :
    (∀ (total f : Nat) (cs sb rest : List Char) (contents : List ScriptContents)
        (delim : jsQuote) (rgx : Bool) (code : GoCode),
      matchLit jsEndTagL cs = none →
      goCodeInJavaScript cs = some (code, rest) →
      parseScriptContents total (f + 1) cs sb contents delim rgx =
        parseScriptContents total f rest []
          (contents ++ flushBuffer sb ++
            [ScriptContents.goCode code (decide (delim ≠ jsQuote.none))])
          delim rgx) ∧
    scriptElementParse ("<script>{{ name }}</script>".toList) =
      ParseResult.ok
        ⟨[], [ScriptContents.goCode ⟨("name".toList), ("{{ name }}".toList)⟩ false],
         0, 27⟩ [] Option.none := by
  exact ⟨fun _ _ _ _ _ _ _ _ _ hend hgo => scan_goCode hend hgo, by decide⟩

theorem expression_insideStringLiteral_flag_witness :
    parseScriptContents 20 4 ("{{ x }}</script>".toList) [] [] jsQuote.none false =
      parseScriptContents 20 3 ("</script>".toList) []
        ([] ++ flushBuffer [] ++
          [ScriptContents.goCode ⟨("x".toList), ("{{ x }}".toList)⟩
            (decide (jsQuote.none ≠ jsQuote.none))])
        jsQuote.none false :=
  expression_insideStringLiteral_flag.1 20 3 ("{{ x }}</script>".toList) []
    ("</script>".toList) [] jsQuote.none false ⟨("x".toList), ("{{ x }}".toList)⟩
    (by decide) (by decide)

/-- C9: soft-failure frame property of the opening-tag phase: whenever the
`<` does not match, the element name does not parse, the name is not
exactly `script`, the attribute grammar fails, or the `>` is missing, the
parse call reports a clean non-match and the cursor is restored to exactly
its pre-call position (the original input). -/
theorem openingTag_soft_failure_restores_cursor :
    ∀ input : List Char,
      (matchLit ltL input = none ∨
       (∃ cs1, matchLit ltL input = some cs1 ∧
         (elementNameParser cs1 = none ∨
          (∃ name cs2, elementNameParser cs1 = some (name, cs2) ∧
            (name ≠ scriptNameL ∨
             attributesParser cs2 = none ∨
             (∃ attrs cs3, attributesParser cs2 = some (attrs, cs3) ∧
               matchLit gtL (cs3.dropWhile isWSChar) = none)))))) →
      scriptElementParse input = ParseResult.noMatch input := by
  intro input h
  unfold scriptElementParse
  rcases h with h | ⟨cs1, h1, h⟩
  · rw [h]
  · rw [h1]
    dsimp only
    rcases h with h | ⟨name, cs2, h2, h⟩
    · rw [h]
    · rw [h2]
      dsimp only
      rcases h with h | h
      · rw [if_pos h]
      · by_cases hn : name ≠ scriptNameL
        · rw [if_pos hn]
        · rw [if_neg hn]
          rcases h with h | ⟨attrs, cs3, h3, h4⟩
          · rw [h]
          · rw [h3]
            dsimp only
            rw [h4]

theorem openingTag_soft_failure_restores_cursor_witness :
    scriptElementParse ("<div>x".toList) = ParseResult.noMatch ("<div>x".toList) :=
  openingTag_soft_failure_restores_cursor _
    (Or.inr ⟨("div>x".toList), by decide,
      Or.inr ⟨("div".toList), (">x".toList), by decide, Or.inl (by decide)⟩⟩)

theorem updateState_preserves_exclusion {sb c : List Char} {d : jsQuote} {r : Bool}
    (h : r = true → d = jsQuote.none) :
    (updateState sb d r c).2 = true → (updateState sb d r c).1 = jsQuote.none := by
  unfold updateState
  dsimp only
  intro h2
  split_ifs at h2 ⊢ <;> simp_all

/-- C10: scanner-state mutual exclusion: in every reachable scanner state,
it is never the case that the regex flag is set while the string delimiter
is non-none. -/
theorem scanner_state_mutual_exclusion :
    ∀ (delim : jsQuote) (rgx : Bool), ScanReachable delim rgx →
      rgx = true → delim = jsQuote.none := by
  intro delim rgx h
  induction h with
  | init => intro _; rfl
  | step sb c d r hr ih => exact updateState_preserves_exclusion ih

theorem scanner_state_mutual_exclusion_witness :
    (updateState [] jsQuote.none false [slashChar]).1 = jsQuote.none :=
  scanner_state_mutual_exclusion _ _
    (ScanReachable.step [] [slashChar] jsQuote.none false ScanReachable.init)
    (by decide)

/-- C5: the content-type classifier answers JavaScript exactly when there
is no constant attribute with a constant key case-insensitively equal to
`type` (expression-keyed, expression-valued and boolean attributes are
skipped), or the first such attribute's value case-insensitively equals
one of the empty string, `text/javascript`, `javascript` or `module`
(later literal `type` attributes being ignored). -/
theorem hasJavaScriptType_spec :
    ∀ attrs : List Attribute,
      hasJavaScriptType attrs = true ↔
        (firstLiteralTypeAttr attrs = Option.none ∨
         ∃ v, firstLiteralTypeAttr attrs = some v ∧
           (equalFold v ("".toList) = true ∨
            equalFold v ("text/javascript".toList) = true ∨
            equalFold v ("javascript".toList) = true ∨
            equalFold v ("module".toList) = true)) := by
  intro attrs
  induction attrs with
  | nil => simp [hasJavaScriptType, firstLiteralTypeAttr]
  | cons attr rest ih =>
    cases attr with
    | constantAttr key value =>
      cases key with
      | constant keyName =>
        by_cases hk : equalFold keyName typeL = true
        · simp only [hasJavaScriptType, firstLiteralTypeAttr, hk, if_pos,
            javaScriptTypeAttributeValues, List.map, List.any, Bool.or_eq_true,
            Option.some.injEq]
          constructor
          · intro h
            refine Or.inr ⟨value, rfl, ?_⟩
            simpa [Bool.or_eq_true] using h
          · rintro (h | ⟨v, rfl, h⟩)
            · cases h
            · simpa [Bool.or_eq_true] using h
        · simp only [hasJavaScriptType, firstLiteralTypeAttr, hk, if_neg,
            Bool.false_eq_true]
          simpa using ih
      | expression code =>
        simpa [hasJavaScriptType, firstLiteralTypeAttr] using ih
    | expressionAttr key e =>
      simpa [hasJavaScriptType, firstLiteralTypeAttr] using ih
    | boolAttr key =>
      simpa [hasJavaScriptType, firstLiteralTypeAttr] using ih

theorem getD_concat_last {pre kw : List Char} {d : Char} (h : pre ≠ []) :
    (pre ++ kw).getD (pre.length - 1) d = (pre.getLast?).getD d := by
  have hlt : pre.length - 1 < pre.length := Nat.sub_lt (List.length_pos.mpr h) one_pos
  rw [List.getD_eq_getElem?_getD, List.getElem?_append_left hlt,
    List.getLast?_eq_getElem?]

theorem endsWithKeywordCode_iff {t kw : List Char} :
    endsWithKeywordCode t kw = true ↔
      ∃ pre, t = pre ++ kw ∧
        (pre = [] ∨ ∃ c, pre.getLast? = some c ∧ isGoSpace c = true) := by
  unfold endsWithKeywordCode
  rw [Bool.and_eq_true, Bool.or_eq_true, List.isSuffixOf_iff_suffix,
    decide_eq_true_iff]
  constructor
  · rintro ⟨⟨pre, rfl⟩, hcond⟩
    refine ⟨pre, rfl, ?_⟩
    by_cases hpre : pre = []
    · exact Or.inl hpre
    · right
      rcases hcond with hlen | hsp
      · exfalso
        apply hpre
        simpa [List.length_append] using hlen
      · cases hgl : pre.getLast? with
        | none => exact absurd (List.getLast?_eq_none_iff.mp hgl) hpre
        | some c =>
          refine ⟨c, rfl, ?_⟩
          have hidx : (pre ++ kw).length - kw.length - 1 = pre.length - 1 := by
            simp [List.length_append]
          rw [hidx, getD_concat_last hpre, hgl] at hsp
          exact hsp
  · rintro ⟨pre, rfl, hcond⟩
    refine ⟨⟨pre, rfl⟩, ?_⟩
    rcases hcond with rfl | ⟨c, hgl, hsp⟩
    · exact Or.inl (by simp)
    · right
      have hpre : pre ≠ [] := by
        intro hnil
        rw [hnil] at hgl
        cases hgl
      have hidx : (pre ++ kw).length - kw.length - 1 = pre.length - 1 := by
        simp [List.length_append]
      rw [hidx, getD_concat_last hpre, hgl]
      exact hsp

/-- C6: for every string, `isStartOfRegex` returns true exactly when,
after trimming trailing whitespace, the text is empty, or ends with one of
the regex-preceding keywords as a whole word (preceded by whitespace or
nothing), or its last character is one of the regex-preceding
characters. -/
theorem isStartOfRegex_spec : ∀ s : List Char,
    isStartOfRegex s = true ↔ isStartOfRegexSpec s := by
  intro s
  unfold isStartOfRegex isStartOfRegexSpec
  by_cases ht : trimRightWS s = []
  · simp [ht]
  · rw [if_neg ht]
    have htf : (trimRightWS s = []) = False := eq_false ht
    rw [htf, false_or]
    have hA : regexKeywords.any (endsWithKeywordCode (trimRightWS s)) = true ↔
        (∃ kw ∈ regexKeywords, ∃ pre, trimRightWS s = pre ++ kw ∧
          (pre = [] ∨ ∃ c, pre.getLast? = some c ∧ isGoSpace c = true)) := by
      rw [List.any_eq_true]
      constructor
      · rintro ⟨kw, hmem, hkw⟩
        exact ⟨kw, hmem, endsWithKeywordCode_iff.mp hkw⟩
      · rintro ⟨kw, hmem, hcond⟩
        exact ⟨kw, hmem, endsWithKeywordCode_iff.mpr hcond⟩
    by_cases ha : regexKeywords.any (endsWithKeywordCode (trimRightWS s)) = true
    · rw [if_pos ha]
      simp only [true_iff]
      exact Or.inl (hA.mp ha)
    · rw [if_neg ha]
      cases hl : (trimRightWS s).getLast? with
      | none =>
        dsimp only
        constructor
        · intro hfalse
          cases hfalse
        · rintro (hA' | ⟨c, hc, _⟩)
          · exact absurd (hA.mpr hA') ha
          · exact Option.noConfusion hc
      | some c =>
        dsimp only
        rw [List.elem_iff]
        constructor
        · intro hmem
          exact Or.inr ⟨c, rfl, hmem⟩
        · rintro (hA' | ⟨c', hc', hmem⟩)
          · exact absurd (hA.mpr hA') ha
          · injection hc' with hc'
            subst hc'
            exact hmem

/-! ## Serialization and the round-trip law -/

theorem serializeContents_append (xs ys : List ScriptContents) :
    serializeContents (xs ++ ys) = serializeContents xs ++ serializeContents ys := by
  simp [serializeContents]

theorem serializeContents_flush (sb : List Char) :
    serializeContents (flushBuffer sb) = sb := by
  by_cases h : sb = []
  · subst h; rfl
  · simp [flushBuffer, h, serializeContents, serializeScriptContent]

theorem serializeContents_nil : serializeContents [] = [] := rfl

theorem scan_fuel_zero {total : Nat} {cs sb : List Char}
    {contents : List ScriptContents} {delim : jsQuote} {rgx : Bool}
    {out : List ScriptContents} {rest : List Char} :
    parseScriptContents total 0 cs sb contents delim rgx ≠ ScanResult.done out rest := by
  intro h
  exact ScanResult.noConfusion h

theorem scan_roundtrip {total : Nat} : ∀ (f : Nat) (cs sb : List Char)
    (contents : List ScriptContents) (delim : jsQuote) (rgx : Bool)
    (out : List ScriptContents) (rest : List Char),
    parseScriptContents total f cs sb contents delim rgx = ScanResult.done out rest →
    (serializeContents out ++ jsEndTagL ++ rest =
        serializeContents contents ++ sb ++ cs ∨
     (rest = [] ∧ serializeContents out = serializeContents contents ++ sb ++ cs)) := by
  intro f
  induction f with
  | zero =>
    intro cs sb contents delim rgx out rest h
    exact absurd h scan_fuel_zero
  | succ f ih =>
    intro cs sb contents delim rgx out rest h
    cases hend : matchLit jsEndTagL cs with
    | some r =>
      rw [scan_endTag hend] at h
      injection h with h1 h2
      subst h1; subst h2
      left
      rw [matchLit_eq_append hend, serializeContents_append, serializeContents_flush]
      simp [List.append_assoc]
    | none =>
      cases hgo : goCodeInJavaScript cs with
      | some p =>
        obtain ⟨code, rest1⟩ := p
        rw [scan_goCode hend hgo] at h
        obtain ⟨e1, hraw⟩ := goCodeInJavaScript_eq hgo
        have hstep :
            serializeContents (contents ++ flushBuffer sb ++
              [ScriptContents.goCode code (decide (delim ≠ jsQuote.none))]) ++
              [] ++ rest1 = serializeContents contents ++ sb ++ cs := by
          rw [e1, serializeContents_append, serializeContents_append,
            serializeContents_flush]
          simp [serializeContents, serializeScriptContent, List.append_assoc]
        rcases ih _ _ _ _ _ _ _ h with hh | ⟨hrest, hh⟩
        · rw [hstep] at hh
          exact Or.inl hh
        · rw [hstep] at hh
          exact Or.inr ⟨hrest, hh⟩
      | none =>
        cases hcom : jsComment cs with
        | some p =>
          obtain ⟨text, rest1⟩ := p
          rw [scan_comment hend hgo hcom] at h
          obtain ⟨e1, hne, _⟩ := jsComment_eq hcom
          have hstep :
              serializeContents (contents ++ flushBuffer sb ++
                [ScriptContents.scriptCode text]) ++ [] ++ rest1 =
                serializeContents contents ++ sb ++ cs := by
            rw [e1, serializeContents_append, serializeContents_append,
              serializeContents_flush]
            simp [serializeContents, serializeScriptContent, List.append_assoc]
          rcases ih _ _ _ _ _ _ _ h with hh | ⟨hrest, hh⟩
          · rw [hstep] at hh
            exact Or.inl hh
          · rw [hstep] at hh
            exact Or.inr ⟨hrest, hh⟩
        | none =>
          cases hch : jsCharacter cs with
          | some p =>
            obtain ⟨u, rest1⟩ := p
            rw [scan_char hend hgo hcom hch] at h
            obtain ⟨e1, hne⟩ := jsCharacter_eq hch
            have hstep : serializeContents contents ++ (sb ++ u) ++ rest1 =
                serializeContents contents ++ sb ++ cs := by
              rw [e1]
              simp [List.append_assoc]
            rcases ih _ _ _ _ _ _ _ h with hh | ⟨hrest, hh⟩
            · rw [hstep] at hh
              exact Or.inl hh
            · rw [hstep] at hh
              exact Or.inr ⟨hrest, hh⟩
          | none =>
            have hnil : cs = [] := jsCharacter_none_iff.mp hch
            subst hnil
            rw [scan_eof] at h
            injection h with h1 h2
            subst h1; subst h2
            right
            refine ⟨rfl, ?_⟩
            rw [serializeContents_append, serializeContents_flush]
            simp

/-- C4: round-trip law for the JavaScript-aware scanner: when the scan of
the inter-tag content succeeds, concatenating the serializations of all
content entries in order (literal text verbatim, expression entries
rendered back to their original source text) reproduces the consumed text
exactly: the input is the serialization followed by the terminating
`</script>` and the unconsumed rest (or, when the loop ended at end of
input, the serialization alone). -/
theorem contents_roundtrip : ∀ (total f : Nat) (cs : List Char)
    (out : List ScriptContents) (rest : List Char),
    parseScriptContents total f cs [] [] jsQuote.none false =
      ScanResult.done out rest →
    serializeContents out ++ jsEndTagL ++ rest = cs ∨
    (rest = [] ∧ serializeContents out = cs) := by
  intro total f cs out rest h
  have hrt := scan_roundtrip f cs [] [] jsQuote.none false out rest h
  simpa using hrt

theorem contents_roundtrip_witness :
    serializeContents [ScriptContents.scriptCode ("a".toList)] ++ jsEndTagL ++ [] =
      ("a</script>".toList) ∨
    (([] : List Char) = [] ∧
      serializeContents [ScriptContents.scriptCode ("a".toList)] =
        ("a</script>".toList)) :=
  contents_roundtrip 10 11 ("a</script>".toList)
    [ScriptContents.scriptCode ("a".toList)] [] (by decide)

/-! ## Behavior on input with no closing tag -/

theorem not_infix_of_append {pat a rest : List Char}
    (h : ¬ pat <:+: (a ++ rest)) : ¬ pat <:+: rest := by
  intro hi
  exact h (hi.trans (List.suffix_append a rest).isInfix)

theorem scan_no_endtag {total : Nat} : ∀ (f : Nat) (cs sb : List Char)
    (contents : List ScriptContents) (delim : jsQuote) (rgx : Bool),
    ¬ (jsEndTagL <:+: cs) → cs.length < f →
    ∃ out, parseScriptContents total f cs sb contents delim rgx =
      ScanResult.done out [] := by
  intro f
  induction f with
  | zero =>
    intro cs sb contents delim rgx hinf hlen
    exact absurd hlen (Nat.not_lt_zero _)
  | succ f ih =>
    intro cs sb contents delim rgx hinf hlen
    cases hend : matchLit jsEndTagL cs with
    | some r => exact absurd (matchLit_isPrefix hend).isInfix hinf
    | none =>
      cases hgo : goCodeInJavaScript cs with
      | some p =>
        obtain ⟨code, rest1⟩ := p
        rw [scan_goCode hend hgo]
        obtain ⟨e1, hraw⟩ := goCodeInJavaScript_eq hgo
        have hinf1 : ¬ (jsEndTagL <:+: rest1) := by
          rw [e1] at hinf
          exact not_infix_of_append hinf
        have hlen1 : rest1.length < f := by
          have : cs.length = code.raw.length + rest1.length := by
            rw [e1, List.length_append]
          have hp : 0 < code.raw.length := List.length_pos.mpr hraw
          omega
        exact ih rest1 [] _ delim rgx hinf1 hlen1
      | none =>
        cases hcom : jsComment cs with
        | some p =>
          obtain ⟨text, rest1⟩ := p
          rw [scan_comment hend hgo hcom]
          obtain ⟨e1, hne, _⟩ := jsComment_eq hcom
          have hinf1 : ¬ (jsEndTagL <:+: rest1) := by
            rw [e1] at hinf
            exact not_infix_of_append hinf
          have hlen1 : rest1.length < f := by
            have : cs.length = text.length + rest1.length := by
              rw [e1, List.length_append]
            have hp : 0 < text.length := List.length_pos.mpr hne
            omega
          exact ih rest1 [] _ delim rgx hinf1 hlen1
        | none =>
          cases hch : jsCharacter cs with
          | some p =>
            obtain ⟨u, rest1⟩ := p
            rw [scan_char hend hgo hcom hch]
            obtain ⟨e1, hne⟩ := jsCharacter_eq hch
            have hinf1 : ¬ (jsEndTagL <:+: rest1) := by
              rw [e1] at hinf
              exact not_infix_of_append hinf
            have hlen1 : rest1.length < f := by
              have : cs.length = u.length + rest1.length := by
                rw [e1, List.length_append]
              have hp : 0 < u.length := List.length_pos.mpr hne
              omega
            exact ih rest1 (sb ++ u) _ _ _ hinf1 hlen1
          | none =>
            have hnil : cs = [] := jsCharacter_none_iff.mp hch
            subst hnil
            rw [scan_eof]
            exact ⟨_, rfl⟩

theorem stringUntil_endtag_none : ∀ cs : List Char, ¬ (jsEndTagL <:+: cs) →
    stringUntilP (litDelim jsEndTagL) cs = none := by
  intro cs
  induction cs with
  | nil => intro _; rfl
  | cons c cs' ih =>
    intro h
    unfold stringUntilP
    rw [if_neg, ih (@not_infix_of_append jsEndTagL [c] cs' h)]
    · rfl
    · intro hs
      obtain ⟨p, hp⟩ := Option.isSome_iff_exists.mp hs
      obtain ⟨r, hr, _⟩ := Option.map_eq_some'.mp hp
      exact h (matchLit_isPrefix hr).isInfix

/-- C2 counterexample: on the JavaScript-typed unterminated input
`<script>var x = 1;` the parse call returns success with no error (the
scanning loop breaks at end of input), not a hard terminal error; and on
the raw-text unterminated input it returns ok together with a partial
element alongside the error. -/
theorem unterminated_error_counterexample :
    scriptElementParse ("<script>var x = 1;".toList) =
      ParseResult.ok ⟨[], [ScriptContents.scriptCode ("var x = 1;".toList)], 0, 18⟩
        [] Option.none ∧
    scriptElementParse ("<script type=\"text/css\">x".toList) =
      ParseResult.ok
        ⟨[Attribute.constantAttr (AttributeKey.constant ("type".toList))
            ("text/css".toList)], [], 0, 0⟩
        ("x".toList) (some ⟨endTagNotPresentMsg, 24⟩) := by
  exact ⟨by decide, by decide⟩

/-- C2 amended: when no literal `</script>` occurs in the content, the
JavaScript-aware scan does not fail: it consumes everything up to end of
input and succeeds with the whole remaining text serialized in its output
(so the parse call returns ok with no error); the raw-text scan's
delimiter search cleanly fails, which the raw-text path turns into ok with
a partial element alongside a terminal error carrying a position. -/
theorem unterminated_behavior_amended :
    (∀ (total : Nat) (cs : List Char), ¬ (jsEndTagL <:+: cs) →
      ∃ out, parseScriptContents total (cs.length + 1) cs [] [] jsQuote.none false =
        ScanResult.done out [] ∧ serializeContents out = cs) ∧
    (∀ cs : List Char, ¬ (jsEndTagL <:+: cs) →
      stringUntilP (litDelim jsEndTagL) cs = none) := by
  constructor
  · intro total cs hinf
    obtain ⟨out, hout⟩ :=
      scan_no_endtag (cs.length + 1) cs [] [] jsQuote.none false hinf
        (Nat.lt_succ_self _)
    refine ⟨out, hout, ?_⟩
    have hrt := scan_roundtrip (cs.length + 1) cs [] [] jsQuote.none false out [] hout
    simp only [serializeContents_nil, List.nil_append, List.append_nil] at hrt
    rcases hrt with hh | ⟨_, hh⟩
    · exfalso
      apply hinf
      exact ⟨serializeContents out, [], by simpa using hh⟩
    · exact hh
  · exact stringUntil_endtag_none

theorem unterminated_behavior_amended_witness :
    (∃ out, parseScriptContents 3 4 ("abc".toList) [] [] jsQuote.none false =
      ScanResult.done out [] ∧ serializeContents out = ("abc".toList)) ∧
    stringUntilP (litDelim jsEndTagL) ("ab".toList) = none :=
  ⟨unterminated_behavior_amended.1 3 ("abc".toList) (by decide),
   unterminated_behavior_amended.2 ("ab".toList) (by decide)⟩

/-! ## Adjacent-literal structure of the output -/

theorem endsNonLiteral_cons_cons (a b : ScriptContents) (xs : List ScriptContents) :
    endsNonLiteral (a :: b :: xs) = endsNonLiteral (b :: xs) := by
  simp [endsNonLiteral, List.getLast?_cons_cons]

theorem endsNonLiteral_concat (xs : List ScriptContents) (y : ScriptContents) :
    endsNonLiteral (xs ++ [y]) = !isLiteralEntry y := by
  simp [endsNonLiteral, List.getLast?_concat]

theorem noAdj_concat (xs : List ScriptContents) (y : ScriptContents) :
    noAdjacentLiterals (xs ++ [y]) =
      (noAdjacentLiterals xs && (endsNonLiteral xs || !isLiteralEntry y)) := by
  induction xs with
  | nil => simp [noAdjacentLiterals, endsNonLiteral]
  | cons a xs ih =>
    cases xs with
    | nil =>
      show noAdjacentLiterals [a, y] = _
      have h1 : noAdjacentLiterals [a, y] =
          (!(isLiteralEntry a && isLiteralEntry y) && true) := rfl
      have h2 : noAdjacentLiterals [a] = true := rfl
      have h3 : endsNonLiteral [a] = !isLiteralEntry a := by
        simp [endsNonLiteral]
      rw [h1, h2, h3]
      cases isLiteralEntry a <;> cases isLiteralEntry y <;> rfl
    | cons b xs' =>
      have e2 : (b :: xs') ++ [y] = b :: (xs' ++ [y]) := rfl
      have h1 : noAdjacentLiterals ((a :: b :: xs') ++ [y]) =
          (!(isLiteralEntry a && isLiteralEntry b) &&
            noAdjacentLiterals ((b :: xs') ++ [y])) := rfl
      have h2 : noAdjacentLiterals (a :: b :: xs') =
          (!(isLiteralEntry a && isLiteralEntry b) &&
            noAdjacentLiterals (b :: xs')) := rfl
      rw [h1, ih, h2, endsNonLiteral_cons_cons, Bool.and_assoc]

theorem noAdj_flush {contents : List ScriptContents} {sb : List Char}
    (h1 : noAdjacentLiterals contents = true) (h2 : endsNonLiteral contents = true) :
    noAdjacentLiterals (contents ++ flushBuffer sb) = true := by
  by_cases hsb : sb = []
  · subst hsb
    simpa [flushBuffer] using h1
  · rw [flushBuffer, if_neg hsb, noAdj_concat, h1, h2]
    rfl

theorem inv_flush_nonlit {contents : List ScriptContents} {sb : List Char}
    {e : ScriptContents}
    (h1 : noAdjacentLiterals contents = true) (h2 : endsNonLiteral contents = true)
    (he : isLiteralEntry e = false) :
    noAdjacentLiterals (contents ++ flushBuffer sb ++ [e]) = true ∧
    endsNonLiteral (contents ++ flushBuffer sb ++ [e]) = true := by
  constructor
  · rw [noAdj_concat, noAdj_flush h1 h2, he]
    simp
  · rw [endsNonLiteral_concat, he]
    rfl

theorem scan_noAdj_aux {total : Nat} : ∀ (f : Nat) (cs sb : List Char)
    (contents : List ScriptContents) (delim : jsQuote) (rgx : Bool)
    (out : List ScriptContents) (rest : List Char),
    ¬ (dslashL <:+: cs) → ¬ (slashStarL <:+: cs) →
    noAdjacentLiterals contents = true → endsNonLiteral contents = true →
    parseScriptContents total f cs sb contents delim rgx = ScanResult.done out rest →
    noAdjacentLiterals out = true := by
  intro f
  induction f with
  | zero =>
    intro cs sb contents delim rgx out rest _ _ _ _ h
    exact absurd h scan_fuel_zero
  | succ f ih =>
    intro cs sb contents delim rgx out rest hc1 hc2 hinv1 hinv2 h
    cases hend : matchLit jsEndTagL cs with
    | some r =>
      rw [scan_endTag hend] at h
      injection h with h1 h2
      subst h1
      exact noAdj_flush hinv1 hinv2
    | none =>
      cases hgo : goCodeInJavaScript cs with
      | some p =>
        obtain ⟨code, rest1⟩ := p
        rw [scan_goCode hend hgo] at h
        obtain ⟨e1, _⟩ := goCodeInJavaScript_eq hgo
        obtain ⟨hi1, hi2⟩ := @inv_flush_nonlit contents sb
          (ScriptContents.goCode code (decide (delim ≠ jsQuote.none)))
          hinv1 hinv2 rfl
        refine ih rest1 [] _ delim rgx out rest ?_ ?_ hi1 hi2 h
        · rw [e1] at hc1; exact not_infix_of_append hc1
        · rw [e1] at hc2; exact not_infix_of_append hc2
      | none =>
        cases hcom : jsComment cs with
        | some p =>
          obtain ⟨text, rest1⟩ := p
          obtain ⟨_, _, hpre⟩ := jsComment_eq hcom
          rcases hpre with hpre | hpre
          · exact absurd hpre.isInfix hc1
          · exact absurd hpre.isInfix hc2
        | none =>
          cases hch : jsCharacter cs with
          | some p =>
            obtain ⟨u, rest1⟩ := p
            rw [scan_char hend hgo hcom hch] at h
            obtain ⟨e1, _⟩ := jsCharacter_eq hch
            refine ih rest1 (sb ++ u) contents _ _ out rest ?_ ?_ hinv1 hinv2 h
            · rw [e1] at hc1; exact not_infix_of_append hc1
            · rw [e1] at hc2; exact not_infix_of_append hc2
          | none =>
            have hnil : cs = [] := jsCharacter_none_iff.mp hch
            subst hnil
            rw [scan_eof] at h
            injection h with h1 h2
            subst h1
            exact noAdj_flush hinv1 hinv2

theorem matchLit_suffix {lit cs rest : List Char}
    (h : matchLit lit cs = some rest) : rest <:+ cs :=
  ⟨lit, (matchLit_eq_append h).symm⟩

theorem stringUntilP_suffix {d : List Char → Option (List Char × List Char)}
    {cs t rest : List Char} (h : stringUntilP d cs = some (t, rest)) : rest <:+ cs :=
  ⟨t, ((stringUntilP_eq h).1).symm⟩

theorem elementNameParser_suffix {cs n rest : List Char}
    (h : elementNameParser cs = some (n, rest)) : rest <:+ cs := by
  unfold elementNameParser at h
  cases cs with
  | nil => cases h
  | cons c cs' =>
    dsimp only at h
    split at h
    · injection h with h
      injection h with h1 h2
      subst h2
      exact List.dropWhile_suffix _
    · cases h
theorem attributesParserAux_suffix : ∀ (fuel : Nat) (cs : List Char)
    (acc attrs : List Attribute) (rest : List Char),
    attributesParserAux fuel cs acc = some (attrs, rest) → rest <:+ cs := by
  intro fuel
  induction fuel with
  | zero => intro cs acc attrs rest h; cases h
  | succ f ih =>
    intro cs acc attrs rest h
    unfold attributesParserAux at h
    dsimp only at h
    cases hcs1 : cs.dropWhile isWSChar with
    | nil =>
      rw [hcs1] at h
      dsimp only at h
      injection h with h
      injection h with h1 h2
      subst h2
      exact List.suffix_refl cs
    | cons c l =>
      rw [hcs1] at h
      dsimp only at h
      have hs1 : (c :: l) <:+ cs := hcs1 ▸ List.dropWhile_suffix isWSChar
      split at h
      · cases hrest1 : (c :: l).dropWhile isNameChar with
        | nil =>
          rw [hrest1] at h
          dsimp only at h
          injection h with h
          injection h with h1 h2
          subst h2
          exact (hrest1 ▸ List.dropWhile_suffix isNameChar).trans hs1
        | cons eqc rest2 =>
          rw [hrest1] at h
          dsimp only at h
          have hs2 : (eqc :: rest2) <:+ cs :=
            (hrest1 ▸ List.dropWhile_suffix isNameChar).trans hs1
          split at h
          · cases rest2 with
            | nil => cases h
            | cons q rest3 =>
              dsimp only at h
              have hx : rest3 <:+ eqc :: q :: rest3 := ⟨[eqc, q], rfl⟩
              have hs3 : rest3 <:+ cs := hx.trans hs2
              split at h
              · cases hsu : stringUntilP (litDelim [quoteDoubleChar]) rest3 with
                | none => rw [hsu] at h; cases h
                | some p =>
                  obtain ⟨v, rest4⟩ := p
                  rw [hsu] at h
                  dsimp only at h
                  have hs4 : rest4.drop 1 <:+ cs :=
                    ((List.drop_suffix 1 rest4).trans (stringUntilP_suffix hsu)).trans hs3
                  exact (ih _ _ _ _ h).trans hs4
              · split at h
                · cases hsu : stringUntilP (litDelim [braceCloseChar]) rest3 with
                  | none => rw [hsu] at h; cases h
                  | some p =>
                    obtain ⟨v, rest4⟩ := p
                    rw [hsu] at h
                    dsimp only at h
                    have hs4 : rest4.drop 1 <:+ cs :=
                      ((List.drop_suffix 1 rest4).trans (stringUntilP_suffix hsu)).trans hs3
                    exact (ih _ _ _ _ h).trans hs4
                · cases h
          · exact (ih _ _ _ _ h).trans hs2
      · injection h with h
        injection h with h1 h2
        subst h2
        exact List.suffix_refl cs

theorem attributesParser_suffix {cs : List Char} {attrs : List Attribute}
    {rest : List Char} (h : attributesParser cs = some (attrs, rest)) : rest <:+ cs :=
  attributesParserAux_suffix _ _ _ _ _ h

/-- C3 counterexample: comment recognition appends the flushed buffer as a
Literal and then the comment text as another Literal, producing two
adjacent Literal entries in a successfully parsed element. -/
theorem adjacent_literals_counterexample :
    scriptElementParse ("<script>a// c\nb</script>".toList) =
      ParseResult.ok
        ⟨[], [ScriptContents.scriptCode ("a".toList),
              ScriptContents.scriptCode ("// c\n".toList),
              ScriptContents.scriptCode ("b".toList)], 0, 24⟩ [] Option.none ∧
    noAdjacentLiterals
      [ScriptContents.scriptCode ("a".toList),
       ScriptContents.scriptCode ("// c\n".toList),
       ScriptContents.scriptCode ("b".toList)] = false := by
  exact ⟨by decide, by decide⟩

/-- C3 amended: for every successfully parsed ScriptElement whose input
contains no comment opener (no occurrence of `//` or of the two-character
slash-star opener), the Contents sequence never contains two adjacent
Literal entries; a recognized comment, by contrast, is appended as its own
Literal entry after the flushed buffer and may create adjacent literals. -/
theorem noAdjacentLiterals_amended :
    ∀ (input : List Char) (e : ScriptElement) (rest : List Char)
      (err : Option ParseErr),
      ¬ (dslashL <:+: input) → ¬ (slashStarL <:+: input) →
      scriptElementParse input = ParseResult.ok e rest err →
      noAdjacentLiterals e.contents = true := by
  intro input e rest err h1 h2 hp
  unfold scriptElementParse at hp
  dsimp only at hp
  cases hlt : matchLit ltL input with
  | none => rw [hlt] at hp; cases hp
  | some cs1 =>
    rw [hlt] at hp
    dsimp only at hp
    cases hen : elementNameParser cs1 with
    | none => rw [hen] at hp; cases hp
    | some p =>
      obtain ⟨name, cs2⟩ := p
      rw [hen] at hp
      dsimp only at hp
      by_cases hname : name ≠ scriptNameL
      · rw [if_pos hname] at hp; cases hp
      · rw [if_neg hname] at hp
        cases hat : attributesParser cs2 with
        | none => rw [hat] at hp; cases hp
        | some q =>
          obtain ⟨attrs, cs3⟩ := q
          rw [hat] at hp
          dsimp only at hp
          cases hgt : matchLit gtL (cs3.dropWhile isWSChar) with
          | none => rw [hgt] at hp; cases hp
          | some cs5 =>
            rw [hgt] at hp
            dsimp only at hp
            have hsuf : cs5 <:+ input := by
              have s1 : cs1 <:+ input := matchLit_suffix hlt
              have s2 : cs2 <:+ cs1 := elementNameParser_suffix hen
              have s3 : cs3 <:+ cs2 := attributesParser_suffix hat
              have s4 : cs3.dropWhile isWSChar <:+ cs3 := List.dropWhile_suffix _
              have s5 : cs5 <:+ cs3.dropWhile isWSChar := matchLit_suffix hgt
              exact s5.trans (s4.trans (s3.trans (s2.trans s1)))
            have h1' : ¬ (dslashL <:+: cs5) := fun hi => h1 (hi.trans hsuf.isInfix)
            have h2' : ¬ (slashStarL <:+: cs5) := fun hi => h2 (hi.trans hsuf.isInfix)
            by_cases hjs : (!hasJavaScriptType attrs) = true
            · rw [if_pos hjs] at hp
              cases hsu : stringUntilP (litDelim jsEndTagL) cs5 with
              | none =>
                rw [hsu] at hp
                dsimp only at hp
                injection hp with he _ _
                subst he
                rfl
              | some p2 =>
                obtain ⟨contents, rest1⟩ := p2
                rw [hsu] at hp
                dsimp only at hp
                injection hp with he _ _
                subst he
                rfl
            · rw [if_neg hjs] at hp
              cases hsc : parseScriptContents input.length (cs5.length + 1) cs5 [] []
                  jsQuote.none false with
              | fail errf => rw [hsc] at hp; cases hp
              | done outc restc =>
                rw [hsc] at hp
                dsimp only at hp
                injection hp with he _ _
                subst he
                exact scan_noAdj_aux _ cs5 [] [] jsQuote.none false outc restc
                  h1' h2' rfl rfl hsc

theorem noAdjacentLiterals_amended_witness :
    noAdjacentLiterals
      (ScriptElement.mk [] [ScriptContents.scriptCode ("ok()".toList)] 0 21).contents
      = true :=
  noAdjacentLiterals_amended ("<script>ok()</script>".toList)
    ⟨[], [ScriptContents.scriptCode ("ok()".toList)], 0, 21⟩ [] Option.none
    (by decide) (by decide) (by decide)
